import Mathlib

/-!
Verification of the entropy-gathering core of the repository
(`src/ggentropy.c`): a shallow embedding of `ggentropy` and its three
Linux strategies (`getentropy_getrandom`, `getentropy_urandom`,
`getentropy_sysctl`), plus the Windows (`BCryptGenRandom`) and
BSD/Apple (`arc4random_buf`) bodies.

The operating system is modelled by explicit oracles: a list of
responses, one per OS primitive invocation (`getrandom` syscall,
`read` on the device, `sysctl` call), each response either delivering
a list of bytes or failing with an errno.  Buffers are `List Nat`;
writes past the end of the buffer are dropped (the C contract requires
the buffer to be at least `n` bytes, which theorems assume as
`n ≤ buf.length`).  Loops recurse on the oracle list; an exhausted
oracle yields the outcome `hang`, meaning the C loop is still running
and demanding another OS response.

Results are instrumented with ghost data that the C code determines
but does not return: the list of byte chunks delivered by the OS
(`chunks`), the strategies attempted (`attempted`), and counts of
device descriptors opened and closed.
-/

/-- The errno values distinguished by `ggentropy.c`, plus an `other`
constructor for every remaining error code. -/
inductive Errno where
  | eintr
  | enosys
  | eagain
  | eio
  | other (n : Nat)
deriving DecidableEq, Repr

/-- One response of an OS byte-producing primitive: either success,
delivering the given bytes (the C return value is their count), or
failure with an errno. -/
inductive OsResp where
  | ok (bytes : List Nat)
  | err (e : Errno)
deriving DecidableEq, Repr

/-- Outcome of a strategy or of the whole call.  `hang` means the
oracle was exhausted while the loop still demanded another OS
response (the C code would keep looping). -/
inductive Outcome where
  | ok
  | fail
  | hang
  | assertFail
deriving DecidableEq, Repr

/-- Result of one Linux strategy: outcome, final buffer, the byte
chunks delivered by the OS primitive in order, the errno on failure,
and counts of device descriptors opened and closed. -/
structure StratRes where
  out : Outcome
  buf : List Nat
  chunks : List (List Nat)
  errc : Errno
  opened : Nat
  closed : Nat
deriving DecidableEq, Repr

/-- `writeBytes off bytes buf` overwrites `buf[off + j]` with
`bytes[j]` for each `j`, dropping writes that fall outside the
buffer; it models `memcpy` into `(char *)buf + off`. -/
def writeBytes : Nat → List Nat → List Nat → List Nat
  | _, [], buf => buf
  | off, b :: bs, buf => writeBytes (off + 1) bs (buf.set off b)

/-- The loop of `getentropy_getrandom`: while `left > 0`, invoke the
`getrandom` syscall for the remaining `left` bytes at offset `p`;
on `EINTR` retry, on any other error return -1 with that errno, on
success advance by the returned count. -/
def getrandomLoop : List OsResp → List Nat → Nat → Int → StratRes
  | [], buf, _, left =>
    if left ≤ 0 then ⟨.ok, buf, [], .eio, 0, 0⟩ else ⟨.hang, buf, [], .eio, 0, 0⟩
  | .err e :: rest, buf, p, left =>
    if left ≤ 0 then ⟨.ok, buf, [], .eio, 0, 0⟩
    else if e = .eintr then getrandomLoop rest buf p left
    else ⟨.fail, buf, [], e, 0, 0⟩
  | .ok bs :: rest, buf, p, left =>
    if left ≤ 0 then ⟨.ok, buf, [], .eio, 0, 0⟩
    else
      let r := getrandomLoop rest (writeBytes p bs buf) (p + bs.length) (left - bs.length)
      { r with chunks := bs :: r.chunks }

/-- `getentropy_getrandom(buf, len)`: run the syscall loop starting
at offset 0 with `left = len`. -/
def getentropy_getrandom (oracle : List OsResp) (buf : List Nat) (len : Nat) : StratRes :=
  getrandomLoop oracle buf 0 (len : Int)

/-- Outcome of the `open("/dev/urandom", ...)` retry loop. -/
inductive OpenOut where
  | opened
  | failed
  | hang
deriving DecidableEq, Repr

/-- The `start:` retry loop of `getentropy_urandom`: each response is
`none` (open succeeded) or `some e` (open failed with errno `e`);
`EINTR` retries the open, any other error goes to `nodevrandom`. -/
def openLoop : List (Option Errno) → OpenOut
  | [] => .hang
  | none :: _ => .opened
  | some e :: rest => if e = .eintr then openLoop rest else .failed

/-- The read loop of `getentropy_urandom`: while `i < len`, `read`
up to `len - i` bytes at offset `i`; on `EAGAIN`/`EINTR` retry, on
any other error close the descriptor and fail, on success advance by
the returned count.  The `closed` field records the `close(fd)` the
C code performs on that path (the wrapper adds the open count). -/
def readLoop : List OsResp → List Nat → Nat → Nat → StratRes
  | [], buf, i, len =>
    if i < len then ⟨.hang, buf, [], .eio, 0, 0⟩ else ⟨.ok, buf, [], .eio, 0, 1⟩
  | .err e :: rest, buf, i, len =>
    if i < len then
      if e = .eagain ∨ e = .eintr then readLoop rest buf i len
      else ⟨.fail, buf, [], .eio, 0, 1⟩
    else ⟨.ok, buf, [], .eio, 0, 1⟩
  | .ok bs :: rest, buf, i, len =>
    if i < len then
      let r := readLoop rest (writeBytes i bs buf) (i + bs.length) len
      { r with chunks := bs :: r.chunks }
    else ⟨.ok, buf, [], .eio, 0, 1⟩

/-- The environment `getentropy_urandom` runs against: the outcomes
of the successive `open` attempts, whether `fstat` succeeds, whether
the node is a character special device (`S_ISCHR`), whether the
`ioctl(fd, RNDGETENTCNT, ...)` succeeds, and the `read` responses. -/
structure UrWorld where
  opens : List (Option Errno)
  fstatOk : Bool
  isChr : Bool
  ioctlOk : Bool
  rds : List OsResp
deriving DecidableEq, Repr

/-- `getentropy_urandom(buf, len)`: open `/dev/urandom` (retrying on
`EINTR`); verify via `fstat` that the node is a character special
device and that the `RNDGETENTCNT` ioctl succeeds, closing the
descriptor and failing with `EIO` otherwise; then run the read loop,
closing the descriptor on exit. -/
def getentropy_urandom (w : UrWorld) (buf : List Nat) (len : Nat) : StratRes :=
  match openLoop w.opens with
  | .hang => ⟨.hang, buf, [], .eio, 0, 0⟩
  | .failed => ⟨.fail, buf, [], .eio, 0, 0⟩
  | .opened =>
    if !(w.fstatOk && w.isChr) then ⟨.fail, buf, [], .eio, 1, 1⟩
    else if !w.ioctlOk then ⟨.fail, buf, [], .eio, 1, 1⟩
    else
      let r := readLoop w.rds buf 0 len
      { r with opened := 1 }

/-- The loop of `getentropy_sysctl`: while `i < len`, issue a
`SYS__sysctl` call requesting `min(len - i, 16)` bytes at offset `i`;
any nonzero return aborts with `EIO`, otherwise advance by the count
the kernel stored through `oldlenp`. -/
def sysctlLoop : List OsResp → List Nat → Nat → Nat → StratRes
  | [], buf, i, len =>
    if i < len then ⟨.hang, buf, [], .eio, 0, 0⟩ else ⟨.ok, buf, [], .eio, 0, 0⟩
  | .err _ :: _, buf, i, len =>
    if i < len then ⟨.fail, buf, [], .eio, 0, 0⟩ else ⟨.ok, buf, [], .eio, 0, 0⟩
  | .ok bs :: rest, buf, i, len =>
    if i < len then
      let r := sysctlLoop rest (writeBytes i bs buf) (i + bs.length) len
      { r with chunks := bs :: r.chunks }
    else ⟨.ok, buf, [], .eio, 0, 0⟩

/-- `getentropy_sysctl(buf, len)`: run the sysctl loop from offset 0. -/
def getentropy_sysctl (oracle : List OsResp) (buf : List Nat) (len : Nat) : StratRes :=
  sysctlLoop oracle buf 0 len

/-- The Linux strategies of `ggentropy`, in order. -/
inductive Strategy where
  | stepA
  | stepB
  | stepC
deriving DecidableEq, Repr

/-- The whole OS environment of one Linux `ggentropy` call. -/
structure LinuxWorld where
  gr : List OsResp
  ur : UrWorld
  sc : List OsResp
deriving DecidableEq, Repr

/-- Result of a Linux `ggentropy` call: outcome, final buffer, the
value of `getrandom_available` after the call, the strategies that
were invoked in order, and the chunks delivered by the last strategy
invoked. -/
structure GgRes where
  out : Outcome
  buf : List Nat
  avail : Bool
  attempted : List Strategy
  chunks : List (List Nat)
deriving DecidableEq, Repr

/-- The initial value of the `static bool getrandom_available`. -/
def getrandomAvailableInit : Bool := true

/-- Steps B and C of the Linux `ggentropy`: try `/dev/urandom`; if it
returns -1, try `getentropy_sysctl` on the (possibly partially
written) buffer; `pre` is the list of strategies already attempted.
This path is only reached with `getrandom_available` false. -/
def ggentropyBC (w : LinuxWorld) (buf : List Nat) (n : Nat) (pre : List Strategy) : GgRes :=
  let rB := getentropy_urandom w.ur buf n
  match rB.out with
  | .ok => ⟨.ok, rB.buf, false, pre ++ [.stepB], rB.chunks⟩
  | .hang => ⟨.hang, rB.buf, false, pre ++ [.stepB], rB.chunks⟩
  | .fail | .assertFail =>
    let rC := getentropy_sysctl w.sc rB.buf n
    ⟨rC.out, rC.buf, false, pre ++ [.stepB, .stepC], rC.chunks⟩

/-- The Linux body of `ggentropy(buf, n)`: `assert(n <= 256)`; if
`getrandom_available`, try `getentropy_getrandom`: on success return
true; on `ENOSYS` clear the flag and fall through; on any other error
return false.  Then try `/dev/urandom`, then sysctl.  `avail` is the
value of the static flag on entry; the result carries its value on
exit. -/
def ggentropy (avail : Bool) (w : LinuxWorld) (buf : List Nat) (n : Nat) : GgRes :=
  if 256 < n then ⟨.assertFail, buf, avail, [], []⟩
  else if avail then
    let rA := getentropy_getrandom w.gr buf n
    match rA.out with
    | .ok => ⟨.ok, rA.buf, true, [.stepA], rA.chunks⟩
    | .hang => ⟨.hang, rA.buf, true, [.stepA], rA.chunks⟩
    | .fail | .assertFail =>
      if rA.errc = .enosys then ggentropyBC w rA.buf n [.stepA]
      else ⟨.fail, rA.buf, true, [.stepA], rA.chunks⟩
  else ggentropyBC w buf n []

/-- Result of the Windows or BSD body: outcome and final buffer. -/
structure PlatRes where
  out : Outcome
  buf : List Nat
deriving DecidableEq, Repr

/-- The Windows body of `ggentropy(buf, n)`: `assert(n <= 256)`, then
one `BCryptGenRandom` call; `callOk` is whether that call does not
fail, `os` the bytes it would deliver.  The return value is the
call's verdict. -/
def ggentropyWin (callOk : Bool) (os : List Nat) (buf : List Nat) (n : Nat) : PlatRes :=
  if 256 < n then ⟨.assertFail, buf⟩
  else if callOk then ⟨.ok, writeBytes 0 (os.take n) buf⟩
  else ⟨.fail, buf⟩

/-- The BSD/Apple body of `ggentropy(buf, n)`: `assert(n <= 256)`,
then `arc4random_buf(buf, n)`, which always fills `n` bytes, and
return true. -/
def ggentropyBsd (os : List Nat) (buf : List Nat) (n : Nat) : PlatRes :=
  if 256 < n then ⟨.assertFail, buf⟩
  else ⟨.ok, writeBytes 0 (os.take n) buf⟩

/-- A well-behaved `getrandom` oracle never returns more bytes than
the `left` the loop would request at that point. -/
def grFits : Int → List OsResp → Bool
  | _, [] => true
  | left, .err _ :: rest => grFits left rest
  | left, .ok bs :: rest =>
    decide ((bs.length : Int) ≤ left) && grFits (left - bs.length) rest

/-- A well-behaved `read` oracle never returns more bytes than the
`wanted = len - i` the loop would request at that point. -/
def rdFits : Nat → List OsResp → Bool
  | _, [] => true
  | left, .err _ :: rest => rdFits left rest
  | left, .ok bs :: rest =>
    decide (bs.length ≤ left) && rdFits (left - bs.length) rest

/-- A well-behaved `sysctl` oracle never stores more bytes than the
`min(len - i, 16)` the loop requests at that point. -/
def scFits : Nat → List OsResp → Bool
  | _, [] => true
  | left, .err _ :: rest => scFits left rest
  | left, .ok bs :: rest =>
    decide (bs.length ≤ min left 16) && scFits (left - bs.length) rest

/-- All three oracles of a Linux world are well-behaved for a request
of `n` bytes. -/
def worldFits (n : Nat) (w : LinuxWorld) : Bool :=
  grFits (n : Int) w.gr && rdFits n w.ur.rds && scFits n w.sc

/-- Every successful response of the oracle delivers at least one
byte (the positive-progress assumption on the OS primitives). -/
def allPos (oracle : List OsResp) : Bool :=
  oracle.all fun r => match r with
    | .ok bs => !bs.isEmpty
    | .err _ => true

/-! ### Lemmas about `writeBytes` -/

theorem length_writeBytes (bs : List Nat) : ∀ off buf, (writeBytes off bs buf).length = buf.length := by
  induction bs with
  | nil => intro off buf; rfl
  | cons b t ih => intro off buf; rw [writeBytes, ih, List.length_set]

theorem writeBytes_nil (off : Nat) (buf : List Nat) : writeBytes off [] buf = buf := rfl

theorem writeBytes_append (b1 b2 : List Nat) :
    ∀ off buf, writeBytes off (b1 ++ b2) buf = writeBytes (off + b1.length) b2 (writeBytes off b1 buf) := by
  induction b1 with
  | nil => intro off buf; simp [writeBytes]
  | cons b t ih =>
    intro off buf
    rw [List.cons_append, writeBytes, writeBytes, ih]
    congr 1
    simp; omega

theorem drop_writeBytes (bs : List Nat) :
    ∀ off m buf, off + bs.length ≤ m → (writeBytes off bs buf).drop m = buf.drop m := by
  induction bs with
  | nil => intro off m buf _; rfl
  | cons b t ih =>
    intro off m buf h
    simp only [List.length_cons] at h
    rw [writeBytes, ih _ _ _ (by omega), List.drop_set, if_pos (by omega)]

theorem getElem?_writeBytes_lt (bs : List Nat) :
    ∀ off k buf, k < off → (writeBytes off bs buf)[k]? = buf[k]? := by
  induction bs with
  | nil => intro off k buf _; rfl
  | cons b t ih =>
    intro off k buf h
    rw [writeBytes, ih _ _ _ (by omega), List.getElem?_set_ne (by omega)]

theorem getElem?_writeBytes_inside (bs : List Nat) :
    ∀ off k buf, off ≤ k → k < off + bs.length → k < buf.length →
      (writeBytes off bs buf)[k]? = bs[k - off]? := by
  induction bs with
  | nil => intro off k buf h1 h2 _; simp at h2; omega
  | cons b t ih =>
    intro off k buf h1 h2 h3
    simp only [List.length_cons] at h2
    rw [writeBytes]
    rcases Nat.eq_or_lt_of_le h1 with he | hlt
    · subst he
      rw [getElem?_writeBytes_lt t _ _ _ (by omega),
        List.getElem?_set_eq_of_lt _ h3]
      simp [Nat.sub_self]
    · rw [ih _ _ _ (by omega) (by omega) (by simp only [List.length_set]; omega)]
      have hko : k - off = (k - (off + 1)) + 1 := by omega
      rw [hko]
      simp

theorem take_writeBytes_zero (bs buf : List Nat) (n : Nat) (h1 : n ≤ bs.length)
    (h2 : n ≤ buf.length) : (writeBytes 0 bs buf).take n = bs.take n := by
  apply List.ext_getElem?
  intro k
  by_cases hk : k < n
  · rw [List.getElem?_take_of_lt hk, List.getElem?_take_of_lt hk,
      getElem?_writeBytes_inside bs 0 k buf (by omega) (by omega) (by omega)]
    simp
  · have hx : (List.take n (writeBytes 0 bs buf))[k]? = none := by
      apply List.getElem?_eq_none
      simp [length_writeBytes]
      omega
    have hy : (List.take n bs)[k]? = none := by
      apply List.getElem?_eq_none
      simp
      omega
    rw [hx, hy]

/-! ### Invariants of the getrandom loop (Step A) -/

theorem getrandomLoop_done (oracle : List OsResp) (buf : List Nat) (p : Nat) (left : Int)
    (h : left ≤ 0) : getrandomLoop oracle buf p left = ⟨.ok, buf, [], .eio, 0, 0⟩ := by
  match oracle with
  | [] => rw [getrandomLoop, if_pos h]
  | .err e :: rest => rw [getrandomLoop, if_pos h]
  | .ok bs :: rest => rw [getrandomLoop, if_pos h]

theorem getrandomLoop_buf (oracle : List OsResp) :
    ∀ buf p left, (getrandomLoop oracle buf p left).buf
      = writeBytes p (getrandomLoop oracle buf p left).chunks.flatten buf := by
  induction oracle with
  | nil =>
    intro buf p left
    rw [getrandomLoop]
    split <;> rfl
  | cons head rest ih =>
    intro buf p left
    match head with
    | .err e =>
      rw [getrandomLoop]
      split
      · rfl
      · split
        · exact ih _ _ _
        · rfl
    | .ok bs =>
      rw [getrandomLoop]
      split
      · rfl
      · simp only [List.flatten_cons]
        rw [writeBytes_append, ← ih]

theorem getrandomLoop_length (oracle : List OsResp) (buf : List Nat) (p : Nat) (left : Int) :
    (getrandomLoop oracle buf p left).buf.length = buf.length := by
  rw [getrandomLoop_buf, length_writeBytes]

theorem getrandomLoop_ok_len (oracle : List OsResp) :
    ∀ buf p left, (getrandomLoop oracle buf p left).out = .ok →
      left ≤ ((getrandomLoop oracle buf p left).chunks.flatten.length : Int) := by
  induction oracle with
  | nil =>
    intro buf p left h
    by_cases h0 : left ≤ 0
    · rw [getrandomLoop_done _ _ _ _ h0]
      simpa using h0
    · rw [getrandomLoop, if_neg h0] at h
      simp at h
  | cons head rest ih =>
    intro buf p left h
    by_cases h0 : left ≤ 0
    · rw [getrandomLoop_done _ _ _ _ h0]
      simpa using h0
    · match head with
      | .err e =>
        rw [getrandomLoop, if_neg h0] at h ⊢
        by_cases he : e = .eintr
        · rw [if_pos he] at h ⊢
          exact ih _ _ _ h
        · rw [if_neg he] at h
          simp at h
      | .ok bs =>
        rw [getrandomLoop, if_neg h0] at h ⊢
        simp only [List.flatten_cons, List.length_append] at h ⊢
        have := ih _ _ _ h
        push_cast at this ⊢
        omega

theorem getrandomLoop_drop (oracle : List OsResp) :
    ∀ buf p left m, grFits left oracle = true → p + left.toNat ≤ m →
      (getrandomLoop oracle buf p left).buf.drop m = buf.drop m := by
  induction oracle with
  | nil =>
    intro buf p left m _ _
    rw [getrandomLoop]
    split <;> rfl
  | cons head rest ih =>
    intro buf p left m hf hm
    match head with
    | .err e =>
      rw [getrandomLoop]
      split
      · rfl
      · rw [grFits] at hf
        split
        · exact ih _ _ _ _ hf hm
        · rfl
    | .ok bs =>
      rw [getrandomLoop]
      split
      · rfl
      · rw [grFits, Bool.and_eq_true, decide_eq_true_eq] at hf
        obtain ⟨hlen, hf⟩ := hf
        rename_i hpos
        rw [ih _ _ _ _ hf (by omega), drop_writeBytes _ _ _ _ (by omega)]

theorem getrandomLoop_exact (oracle : List OsResp) :
    ∀ buf p left, grFits left oracle = true → 0 ≤ left →
      (getrandomLoop oracle buf p left).out = .ok →
      ((getrandomLoop oracle buf p left).chunks.flatten.length : Int) = left := by
  induction oracle with
  | nil =>
    intro buf p left _ h0 h
    by_cases hz : left ≤ 0
    · rw [getrandomLoop_done _ _ _ _ hz]
      simpa using by omega
    · rw [getrandomLoop, if_neg hz] at h
      simp at h
  | cons head rest ih =>
    intro buf p left hf h0 h
    by_cases hz : left ≤ 0
    · rw [getrandomLoop_done _ _ _ _ hz]
      simpa using by omega
    · match head with
      | .err e =>
        rw [grFits] at hf
        rw [getrandomLoop, if_neg hz] at h ⊢
        by_cases he : e = .eintr
        · rw [if_pos he] at h ⊢
          exact ih _ _ _ hf h0 h
        · rw [if_neg he] at h
          simp at h
      | .ok bs =>
        rw [grFits, Bool.and_eq_true, decide_eq_true_eq] at hf
        obtain ⟨hlen, hf⟩ := hf
        rw [getrandomLoop, if_neg hz] at h ⊢
        simp only [List.flatten_cons, List.length_append] at h ⊢
        have := ih _ _ _ hf (by omega) h
        push_cast at this ⊢
        omega

theorem getrandomLoop_chunks_mem (oracle : List OsResp) :
    ∀ buf p left bs, bs ∈ (getrandomLoop oracle buf p left).chunks →
      OsResp.ok bs ∈ oracle := by
  induction oracle with
  | nil =>
    intro buf p left bs h
    rw [getrandomLoop] at h
    split at h <;> simp at h
  | cons head rest ih =>
    intro buf p left bs h
    match head with
    | .err e =>
      rw [getrandomLoop] at h
      split at h
      · simp at h
      · split at h
        · exact List.mem_cons_of_mem _ (ih _ _ _ _ h)
        · simp at h
    | .ok c =>
      rw [getrandomLoop] at h
      split at h
      · simp at h
      · simp only [List.mem_cons] at h
        rcases h with h | h
        · exact h ▸ List.mem_cons_self _ _
        · exact List.mem_cons_of_mem _ (ih _ _ _ _ h)

theorem getrandomLoop_count (oracle : List OsResp) :
    ∀ buf p left, allPos oracle = true →
      ((getrandomLoop oracle buf p left).chunks.length : Int) ≤ max left 0 := by
  induction oracle with
  | nil =>
    intro buf p left _
    by_cases hz : left ≤ 0
    · rw [getrandomLoop_done _ _ _ _ hz]
      simp
    · rw [getrandomLoop, if_neg hz]
      simp
  | cons head rest ih =>
    intro buf p left hp
    rw [allPos, List.all_cons, Bool.and_eq_true] at hp
    obtain ⟨hh, hp⟩ := hp
    by_cases hz : left ≤ 0
    · rw [getrandomLoop_done _ _ _ _ hz]
      simp
    · match head with
      | .err e =>
        rw [getrandomLoop, if_neg hz]
        by_cases he : e = .eintr
        · rw [if_pos he]
          exact ih _ _ _ hp
        · rw [if_neg he]
          simp
      | .ok bs =>
        have hbs : 1 ≤ bs.length := by
          cases bs
          · simp at hh
          · simp
        rw [getrandomLoop, if_neg hz]
        simp only [List.length_cons]
        have := ih (writeBytes p bs buf) (p + bs.length) (left - bs.length) hp
        push_cast at this ⊢
        omega

theorem getrandomLoop_zero_progress (k : Nat) :
    ∀ buf p left, 0 < left →
      (getrandomLoop (List.replicate k (.ok [])) buf p left).out = .hang := by
  induction k with
  | zero =>
    intro buf p left h
    rw [List.replicate_zero, getrandomLoop, if_neg (by omega)]
  | succ k ih =>
    intro buf p left h
    rw [List.replicate_succ, getrandomLoop, if_neg (by omega)]
    simpa using ih buf p left h

theorem getrandomLoop_eintr (rest : List OsResp) (buf : List Nat) (p : Nat) (left : Int) :
    getrandomLoop (.err .eintr :: rest) buf p left = getrandomLoop rest buf p left := by
  by_cases h : left ≤ 0
  · rw [getrandomLoop_done _ _ _ _ h, getrandomLoop_done _ _ _ _ h]
  · rw [getrandomLoop, if_neg h, if_pos rfl]

/-- Responses that the getrandom loop retries transparently: an
`EINTR` failure of the syscall. -/
def transientG : OsResp → Bool
  | .err .eintr => true
  | _ => false

/-- Responses that the device read loop retries transparently: an
`EAGAIN` or `EINTR` failure of `read`. -/
def transientR : OsResp → Bool
  | .err .eintr => true
  | .err .eagain => true
  | _ => false

theorem getrandomLoop_filter (oracle : List OsResp) :
    ∀ buf p left, getrandomLoop (oracle.filter fun r => !transientG r) buf p left
      = getrandomLoop oracle buf p left := by
  induction oracle with
  | nil => intro buf p left; rfl
  | cons head rest ih =>
    intro buf p left
    by_cases hz : left ≤ 0
    · rw [getrandomLoop_done _ _ _ _ hz, getrandomLoop_done _ _ _ _ hz]
    · match head with
      | .ok bs =>
        rw [List.filter_cons, if_pos (by rfl)]
        rw [getrandomLoop, if_neg hz, getrandomLoop, if_neg hz]
        simp only [ih]
      | .err e =>
        by_cases he : e = .eintr
        · subst he
          rw [List.filter_cons, if_neg (by simp [transientG])]
          rw [ih, getrandomLoop_eintr]
        · rw [List.filter_cons, if_pos (by cases e <;> simp [transientG] at he ⊢)]
          rw [getrandomLoop, if_neg hz, getrandomLoop, if_neg hz, if_neg he, if_neg he]

/-! ### Invariants of the device read loop (Step B) -/

theorem readLoop_done (oracle : List OsResp) (buf : List Nat) (i len : Nat)
    (h : ¬ i < len) : readLoop oracle buf i len = ⟨.ok, buf, [], .eio, 0, 1⟩ := by
  match oracle with
  | [] => rw [readLoop, if_neg h]
  | .err e :: rest => rw [readLoop, if_neg h]
  | .ok bs :: rest => rw [readLoop, if_neg h]

theorem readLoop_buf (oracle : List OsResp) :
    ∀ buf i len, (readLoop oracle buf i len).buf
      = writeBytes i (readLoop oracle buf i len).chunks.flatten buf := by
  induction oracle with
  | nil =>
    intro buf i len
    rw [readLoop]
    split <;> rfl
  | cons head rest ih =>
    intro buf i len
    by_cases h : i < len
    · match head with
      | .err e =>
        rw [readLoop, if_pos h]
        split
        · exact ih _ _ _
        · rfl
      | .ok bs =>
        rw [readLoop, if_pos h]
        simp only [List.flatten_cons]
        rw [writeBytes_append, ← ih]
    · rw [readLoop_done _ _ _ _ h]
      rfl

theorem readLoop_length (oracle : List OsResp) (buf : List Nat) (i len : Nat) :
    (readLoop oracle buf i len).buf.length = buf.length := by
  rw [readLoop_buf, length_writeBytes]

theorem readLoop_ok_len (oracle : List OsResp) :
    ∀ buf i len, (readLoop oracle buf i len).out = .ok →
      len ≤ i + (readLoop oracle buf i len).chunks.flatten.length := by
  induction oracle with
  | nil =>
    intro buf i len h
    by_cases h0 : i < len
    · rw [readLoop, if_pos h0] at h
      simp at h
    · rw [readLoop_done _ _ _ _ h0]
      simp
      omega
  | cons head rest ih =>
    intro buf i len h
    by_cases h0 : i < len
    · match head with
      | .err e =>
        rw [readLoop, if_pos h0] at h ⊢
        by_cases hse : e = .eagain ∨ e = .eintr
        · rw [if_pos hse] at h ⊢
          exact ih _ _ _ h
        · rw [if_neg hse] at h
          simp at h
      | .ok bs =>
        rw [readLoop, if_pos h0] at h ⊢
        simp only [List.flatten_cons, List.length_append] at h ⊢
        have := ih _ _ _ h
        omega
    · rw [readLoop_done _ _ _ _ h0]
      simp
      omega

theorem readLoop_drop (oracle : List OsResp) :
    ∀ buf i len m, rdFits (len - i) oracle = true → len ≤ m →
      (readLoop oracle buf i len).buf.drop m = buf.drop m := by
  induction oracle with
  | nil =>
    intro buf i len m _ _
    rw [readLoop]
    split <;> rfl
  | cons head rest ih =>
    intro buf i len m hf hm
    by_cases h0 : i < len
    · match head with
      | .err e =>
        rw [rdFits] at hf
        rw [readLoop, if_pos h0]
        split
        · exact ih _ _ _ _ hf hm
        · rfl
      | .ok bs =>
        rw [rdFits, Bool.and_eq_true, decide_eq_true_eq] at hf
        obtain ⟨hlen, hf⟩ := hf
        rw [readLoop, if_pos h0]
        have heq : len - i - bs.length = len - (i + bs.length) := by omega
        rw [heq] at hf
        rw [ih _ _ _ _ hf hm, drop_writeBytes _ _ _ _ (by omega)]
    · rw [readLoop_done _ _ _ _ h0]

theorem readLoop_exact (oracle : List OsResp) :
    ∀ buf i len, rdFits (len - i) oracle = true → i ≤ len →
      (readLoop oracle buf i len).out = .ok →
      i + (readLoop oracle buf i len).chunks.flatten.length = len := by
  induction oracle with
  | nil =>
    intro buf i len _ hi h
    by_cases h0 : i < len
    · rw [readLoop, if_pos h0] at h
      simp at h
    · rw [readLoop_done _ _ _ _ h0]
      simp
      omega
  | cons head rest ih =>
    intro buf i len hf hi h
    by_cases h0 : i < len
    · match head with
      | .err e =>
        rw [rdFits] at hf
        rw [readLoop, if_pos h0] at h ⊢
        by_cases hse : e = .eagain ∨ e = .eintr
        · rw [if_pos hse] at h ⊢
          exact ih _ _ _ hf hi h
        · rw [if_neg hse] at h
          simp at h
      | .ok bs =>
        rw [rdFits, Bool.and_eq_true, decide_eq_true_eq] at hf
        obtain ⟨hlen, hf⟩ := hf
        rw [readLoop, if_pos h0] at h ⊢
        have heq : len - i - bs.length = len - (i + bs.length) := by omega
        rw [heq] at hf
        simp only [List.flatten_cons, List.length_append] at h ⊢
        have := ih _ _ _ hf (by omega) h
        omega
    · rw [readLoop_done _ _ _ _ h0]
      simp
      omega

theorem readLoop_chunks_mem (oracle : List OsResp) :
    ∀ buf i len bs, bs ∈ (readLoop oracle buf i len).chunks →
      OsResp.ok bs ∈ oracle := by
  induction oracle with
  | nil =>
    intro buf i len bs h
    rw [readLoop] at h
    split at h <;> simp at h
  | cons head rest ih =>
    intro buf i len bs h
    by_cases h0 : i < len
    · match head with
      | .err e =>
        rw [readLoop, if_pos h0] at h
        split at h
        · exact List.mem_cons_of_mem _ (ih _ _ _ _ h)
        · simp at h
      | .ok c =>
        rw [readLoop, if_pos h0] at h
        simp only [List.mem_cons] at h
        rcases h with h | h
        · exact h ▸ List.mem_cons_self _ _
        · exact List.mem_cons_of_mem _ (ih _ _ _ _ h)
    · rw [readLoop_done _ _ _ _ h0] at h
      simp at h

theorem readLoop_count (oracle : List OsResp) :
    ∀ buf i len, allPos oracle = true →
      (readLoop oracle buf i len).chunks.length ≤ len - i := by
  induction oracle with
  | nil =>
    intro buf i len _
    rw [readLoop]
    split <;> simp
  | cons head rest ih =>
    intro buf i len hp
    rw [allPos, List.all_cons, Bool.and_eq_true] at hp
    obtain ⟨hh, hp⟩ := hp
    by_cases h0 : i < len
    · match head with
      | .err e =>
        rw [readLoop, if_pos h0]
        split
        · exact ih _ _ _ hp
        · simp
      | .ok bs =>
        have hbs : 1 ≤ bs.length := by
          cases bs
          · simp at hh
          · simp
        rw [readLoop, if_pos h0]
        simp only [List.length_cons]
        have := ih (writeBytes i bs buf) (i + bs.length) len hp
        omega
    · rw [readLoop_done _ _ _ _ h0]
      simp

theorem readLoop_zero_progress (k : Nat) :
    ∀ buf i len, i < len →
      (readLoop (List.replicate k (.ok [])) buf i len).out = .hang := by
  induction k with
  | zero =>
    intro buf i len h
    rw [List.replicate_zero, readLoop, if_pos h]
  | succ k ih =>
    intro buf i len h
    rw [List.replicate_succ, readLoop, if_pos h]
    simpa using ih buf i len h

theorem readLoop_transient (e : Errno) (he : e = .eagain ∨ e = .eintr)
    (rest : List OsResp) (buf : List Nat) (i len : Nat) :
    readLoop (.err e :: rest) buf i len = readLoop rest buf i len := by
  by_cases h : i < len
  · rw [readLoop, if_pos h, if_pos he]
  · rw [readLoop_done _ _ _ _ h, readLoop_done _ _ _ _ h]

theorem readLoop_filter (oracle : List OsResp) :
    ∀ buf i len, readLoop (oracle.filter fun r => !transientR r) buf i len
      = readLoop oracle buf i len := by
  induction oracle with
  | nil => intro buf i len; rfl
  | cons head rest ih =>
    intro buf i len
    by_cases h : i < len
    · match head with
      | .ok bs =>
        rw [List.filter_cons, if_pos (by rfl)]
        rw [readLoop, if_pos h, readLoop, if_pos h]
        simp only [ih]
      | .err e =>
        by_cases he : e = .eagain ∨ e = .eintr
        · have : transientR (.err e) = true := by
            rcases he with he | he <;> subst he <;> rfl
          rw [List.filter_cons, if_neg (by simp [this])]
          rw [ih, readLoop_transient e he]
        · have : transientR (.err e) = false := by
            cases e
            · exact absurd (Or.inr rfl) he
            · rfl
            · exact absurd (Or.inl rfl) he
            · rfl
            · rfl
          rw [List.filter_cons, if_pos (by simp [this])]
          rw [readLoop, if_pos h, readLoop, if_pos h, if_neg he, if_neg he]
    · rw [readLoop_done _ _ _ _ h, readLoop_done _ _ _ _ h]

/-! ### Invariants of the sysctl loop (Step C) -/

theorem sysctlLoop_done (oracle : List OsResp) (buf : List Nat) (i len : Nat)
    (h : ¬ i < len) : sysctlLoop oracle buf i len = ⟨.ok, buf, [], .eio, 0, 0⟩ := by
  match oracle with
  | [] => rw [sysctlLoop, if_neg h]
  | .err e :: rest => rw [sysctlLoop, if_neg h]
  | .ok bs :: rest => rw [sysctlLoop, if_neg h]

theorem sysctlLoop_buf (oracle : List OsResp) :
    ∀ buf i len, (sysctlLoop oracle buf i len).buf
      = writeBytes i (sysctlLoop oracle buf i len).chunks.flatten buf := by
  induction oracle with
  | nil =>
    intro buf i len
    rw [sysctlLoop]
    split <;> rfl
  | cons head rest ih =>
    intro buf i len
    by_cases h : i < len
    · match head with
      | .err e =>
        rw [sysctlLoop, if_pos h]
        rfl
      | .ok bs =>
        rw [sysctlLoop, if_pos h]
        simp only [List.flatten_cons]
        rw [writeBytes_append, ← ih]
    · rw [sysctlLoop_done _ _ _ _ h]
      rfl

theorem sysctlLoop_length (oracle : List OsResp) (buf : List Nat) (i len : Nat) :
    (sysctlLoop oracle buf i len).buf.length = buf.length := by
  rw [sysctlLoop_buf, length_writeBytes]

theorem sysctlLoop_ok_len (oracle : List OsResp) :
    ∀ buf i len, (sysctlLoop oracle buf i len).out = .ok →
      len ≤ i + (sysctlLoop oracle buf i len).chunks.flatten.length := by
  induction oracle with
  | nil =>
    intro buf i len h
    by_cases h0 : i < len
    · rw [sysctlLoop, if_pos h0] at h
      simp at h
    · rw [sysctlLoop_done _ _ _ _ h0]
      simp
      omega
  | cons head rest ih =>
    intro buf i len h
    by_cases h0 : i < len
    · match head with
      | .err e =>
        rw [sysctlLoop, if_pos h0] at h
        simp at h
      | .ok bs =>
        rw [sysctlLoop, if_pos h0] at h ⊢
        simp only [List.flatten_cons, List.length_append] at h ⊢
        have := ih _ _ _ h
        omega
    · rw [sysctlLoop_done _ _ _ _ h0]
      simp
      omega

theorem sysctlLoop_drop (oracle : List OsResp) :
    ∀ buf i len m, scFits (len - i) oracle = true → len ≤ m →
      (sysctlLoop oracle buf i len).buf.drop m = buf.drop m := by
  induction oracle with
  | nil =>
    intro buf i len m _ _
    rw [sysctlLoop]
    split <;> rfl
  | cons head rest ih =>
    intro buf i len m hf hm
    by_cases h0 : i < len
    · match head with
      | .err e => rw [sysctlLoop, if_pos h0]
      | .ok bs =>
        rw [scFits, Bool.and_eq_true, decide_eq_true_eq] at hf
        obtain ⟨hlen, hf⟩ := hf
        rw [sysctlLoop, if_pos h0]
        have heq : len - i - bs.length = len - (i + bs.length) := by omega
        rw [heq] at hf
        rw [ih _ _ _ _ hf hm, drop_writeBytes _ _ _ _ (by omega)]
    · rw [sysctlLoop_done _ _ _ _ h0]

theorem sysctlLoop_exact (oracle : List OsResp) :
    ∀ buf i len, scFits (len - i) oracle = true → i ≤ len →
      (sysctlLoop oracle buf i len).out = .ok →
      i + (sysctlLoop oracle buf i len).chunks.flatten.length = len := by
  induction oracle with
  | nil =>
    intro buf i len _ hi h
    by_cases h0 : i < len
    · rw [sysctlLoop, if_pos h0] at h
      simp at h
    · rw [sysctlLoop_done _ _ _ _ h0]
      simp
      omega
  | cons head rest ih =>
    intro buf i len hf hi h
    by_cases h0 : i < len
    · match head with
      | .err e =>
        rw [sysctlLoop, if_pos h0] at h
        simp at h
      | .ok bs =>
        rw [scFits, Bool.and_eq_true, decide_eq_true_eq] at hf
        obtain ⟨hlen, hf⟩ := hf
        rw [sysctlLoop, if_pos h0] at h ⊢
        have heq : len - i - bs.length = len - (i + bs.length) := by omega
        rw [heq] at hf
        simp only [List.flatten_cons, List.length_append] at h ⊢
        have := ih _ _ _ hf (by omega) h
        omega
    · rw [sysctlLoop_done _ _ _ _ h0]
      simp
      omega

theorem sysctlLoop_chunks_mem (oracle : List OsResp) :
    ∀ buf i len bs, bs ∈ (sysctlLoop oracle buf i len).chunks →
      OsResp.ok bs ∈ oracle := by
  induction oracle with
  | nil =>
    intro buf i len bs h
    rw [sysctlLoop] at h
    split at h <;> simp at h
  | cons head rest ih =>
    intro buf i len bs h
    by_cases h0 : i < len
    · match head with
      | .err e =>
        rw [sysctlLoop, if_pos h0] at h
        simp at h
      | .ok c =>
        rw [sysctlLoop, if_pos h0] at h
        simp only [List.mem_cons] at h
        rcases h with h | h
        · exact h ▸ List.mem_cons_self _ _
        · exact List.mem_cons_of_mem _ (ih _ _ _ _ h)
    · rw [sysctlLoop_done _ _ _ _ h0] at h
      simp at h

theorem sysctlLoop_count (oracle : List OsResp) :
    ∀ buf i len, allPos oracle = true →
      (sysctlLoop oracle buf i len).chunks.length ≤ len - i := by
  induction oracle with
  | nil =>
    intro buf i len _
    rw [sysctlLoop]
    split <;> simp
  | cons head rest ih =>
    intro buf i len hp
    rw [allPos, List.all_cons, Bool.and_eq_true] at hp
    obtain ⟨hh, hp⟩ := hp
    by_cases h0 : i < len
    · match head with
      | .err e =>
        rw [sysctlLoop, if_pos h0]
        simp
      | .ok bs =>
        have hbs : 1 ≤ bs.length := by
          cases bs
          · simp at hh
          · simp
        rw [sysctlLoop, if_pos h0]
        simp only [List.length_cons]
        have := ih (writeBytes i bs buf) (i + bs.length) len hp
        omega
    · rw [sysctlLoop_done _ _ _ _ h0]
      simp

theorem sysctlLoop_zero_progress (k : Nat) :
    ∀ buf i len, i < len →
      (sysctlLoop (List.replicate k (.ok [])) buf i len).out = .hang := by
  induction k with
  | zero =>
    intro buf i len h
    rw [List.replicate_zero, sysctlLoop, if_pos h]
  | succ k ih =>
    intro buf i len h
    rw [List.replicate_succ, sysctlLoop, if_pos h]
    simpa using ih buf i len h

theorem openLoop_eintr (rest : List (Option Errno)) :
    openLoop (some .eintr :: rest) = openLoop rest := by
  rw [openLoop, if_pos rfl]

/-! ### Strategy-level facts about `getentropy_urandom` -/

theorem getentropy_urandom_badcheck (w : UrWorld) (buf : List Nat) (len : Nat)
    (hop : openLoop w.opens = .opened)
    (hbad : (w.fstatOk && w.isChr) = false ∨ w.ioctlOk = false) :
    getentropy_urandom w buf len = ⟨.fail, buf, [], .eio, 1, 1⟩ := by
  cases hcc : (w.fstatOk && w.isChr)
  · simp [getentropy_urandom, hop, hcc]
  · rcases hbad with hb | hb
    · rw [hcc] at hb
      exact absurd hb (by simp)
    · simp [getentropy_urandom, hop, hcc, hb]

theorem getentropy_urandom_buf (w : UrWorld) (buf : List Nat) (len : Nat) :
    (getentropy_urandom w buf len).buf
      = writeBytes 0 (getentropy_urandom w buf len).chunks.flatten buf := by
  rcases hop : openLoop w.opens
  · cases hcc : (w.fstatOk && w.isChr)
    · simp [getentropy_urandom, hop, hcc, writeBytes]
    · cases hio : w.ioctlOk
      · simp [getentropy_urandom, hop, hcc, hio, writeBytes]
      · simp only [getentropy_urandom, hop, hcc, hio]
        simpa using readLoop_buf w.rds buf 0 len
  · simp [getentropy_urandom, hop, writeBytes]
  · simp [getentropy_urandom, hop, writeBytes]

theorem getentropy_urandom_length (w : UrWorld) (buf : List Nat) (len : Nat) :
    (getentropy_urandom w buf len).buf.length = buf.length := by
  rw [getentropy_urandom_buf, length_writeBytes]

theorem getentropy_urandom_ok_len (w : UrWorld) (buf : List Nat) (len : Nat)
    (h : (getentropy_urandom w buf len).out = .ok) :
    len ≤ (getentropy_urandom w buf len).chunks.flatten.length := by
  rcases hop : openLoop w.opens
  · cases hcc : (w.fstatOk && w.isChr)
    · simp [getentropy_urandom, hop, hcc] at h
    · cases hio : w.ioctlOk
      · simp [getentropy_urandom, hop, hcc, hio] at h
      · simp only [getentropy_urandom, hop, hcc, hio] at h ⊢
        simp at h ⊢
        simpa using readLoop_ok_len w.rds buf 0 len h
  · simp [getentropy_urandom, hop] at h
  · simp [getentropy_urandom, hop] at h

theorem getentropy_urandom_exact (w : UrWorld) (buf : List Nat) (len : Nat)
    (hf : rdFits len w.rds = true)
    (h : (getentropy_urandom w buf len).out = .ok) :
    (getentropy_urandom w buf len).chunks.flatten.length = len := by
  rcases hop : openLoop w.opens
  · cases hcc : (w.fstatOk && w.isChr)
    · simp [getentropy_urandom, hop, hcc] at h
    · cases hio : w.ioctlOk
      · simp [getentropy_urandom, hop, hcc, hio] at h
      · simp only [getentropy_urandom, hop, hcc, hio] at h ⊢
        simp at h ⊢
        have := readLoop_exact w.rds buf 0 len (by simpa using hf) (by omega) h
        simp at this
        omega
  · simp [getentropy_urandom, hop] at h
  · simp [getentropy_urandom, hop] at h

theorem getentropy_urandom_drop (w : UrWorld) (buf : List Nat) (len m : Nat)
    (hf : rdFits len w.rds = true) (hm : len ≤ m) :
    (getentropy_urandom w buf len).buf.drop m = buf.drop m := by
  rcases hop : openLoop w.opens
  · cases hcc : (w.fstatOk && w.isChr)
    · simp [getentropy_urandom, hop, hcc]
    · cases hio : w.ioctlOk
      · simp [getentropy_urandom, hop, hcc, hio]
      · simp only [getentropy_urandom, hop, hcc, hio]
        simpa using readLoop_drop w.rds buf 0 len m (by simpa using hf) hm
  · simp [getentropy_urandom, hop]
  · simp [getentropy_urandom, hop]

theorem getentropy_urandom_chunks_mem (w : UrWorld) (buf : List Nat) (len : Nat)
    (bs : List Nat) (h : bs ∈ (getentropy_urandom w buf len).chunks) :
    OsResp.ok bs ∈ w.rds := by
  rcases hop : openLoop w.opens
  · cases hcc : (w.fstatOk && w.isChr)
    · simp [getentropy_urandom, hop, hcc] at h
    · cases hio : w.ioctlOk
      · simp [getentropy_urandom, hop, hcc, hio] at h
      · simp only [getentropy_urandom, hop, hcc, hio] at h
        exact readLoop_chunks_mem w.rds buf 0 len bs (by simpa using h)
  · simp [getentropy_urandom, hop] at h
  · simp [getentropy_urandom, hop] at h

/-! ### Wrapper-level facts for Steps A and C -/

theorem getrandomLoop_no_assert (oracle : List OsResp) :
    ∀ buf p left, (getrandomLoop oracle buf p left).out ≠ .assertFail := by
  induction oracle with
  | nil =>
    intro buf p left
    rw [getrandomLoop]
    split <;> simp
  | cons head rest ih =>
    intro buf p left
    by_cases hz : left ≤ 0
    · rw [getrandomLoop_done _ _ _ _ hz]
      simp
    · match head with
      | .err e =>
        rw [getrandomLoop, if_neg hz]
        by_cases he : e = .eintr
        · rw [if_pos he]
          exact ih _ _ _
        · rw [if_neg he]
          simp
      | .ok bs =>
        rw [getrandomLoop, if_neg hz]
        simpa using ih _ _ _

theorem readLoop_no_assert (oracle : List OsResp) :
    ∀ buf i len, (readLoop oracle buf i len).out ≠ .assertFail := by
  induction oracle with
  | nil =>
    intro buf i len
    rw [readLoop]
    split <;> simp
  | cons head rest ih =>
    intro buf i len
    by_cases h0 : i < len
    · match head with
      | .err e =>
        rw [readLoop, if_pos h0]
        by_cases hse : e = .eagain ∨ e = .eintr
        · rw [if_pos hse]
          exact ih _ _ _
        · rw [if_neg hse]
          simp
      | .ok bs =>
        rw [readLoop, if_pos h0]
        simpa using ih _ _ _
    · rw [readLoop_done _ _ _ _ h0]
      simp

theorem sysctlLoop_no_assert (oracle : List OsResp) :
    ∀ buf i len, (sysctlLoop oracle buf i len).out ≠ .assertFail := by
  induction oracle with
  | nil =>
    intro buf i len
    rw [sysctlLoop]
    split <;> simp
  | cons head rest ih =>
    intro buf i len
    by_cases h0 : i < len
    · match head with
      | .err e =>
        rw [sysctlLoop, if_pos h0]
        simp
      | .ok bs =>
        rw [sysctlLoop, if_pos h0]
        simpa using ih _ _ _
    · rw [sysctlLoop_done _ _ _ _ h0]
      simp

theorem getentropy_urandom_no_assert (w : UrWorld) (buf : List Nat) (len : Nat) :
    (getentropy_urandom w buf len).out ≠ .assertFail := by
  rcases hop : openLoop w.opens
  · cases hcc : (w.fstatOk && w.isChr)
    · simp [getentropy_urandom, hop, hcc]
    · cases hio : w.ioctlOk
      · simp [getentropy_urandom, hop, hcc, hio]
      · simp only [getentropy_urandom, hop, hcc, hio]
        simpa using readLoop_no_assert w.rds buf 0 len
  · simp [getentropy_urandom, hop]
  · simp [getentropy_urandom, hop]

/-! ### Case equations for `ggentropy` -/

theorem ggentropy_big (avail : Bool) (w : LinuxWorld) (buf : List Nat) (n : Nat)
    (h : 256 < n) : ggentropy avail w buf n = ⟨.assertFail, buf, avail, [], []⟩ := by
  rw [ggentropy, if_pos h]

theorem ggentropy_notavail (w : LinuxWorld) (buf : List Nat) (n : Nat) (h : ¬ 256 < n) :
    ggentropy false w buf n = ggentropyBC w buf n [] := by
  rw [ggentropy, if_neg h, if_neg (by simp)]

theorem ggentropy_stepA_ok (w : LinuxWorld) (buf : List Nat) (n : Nat) (h : ¬ 256 < n)
    (hA : (getentropy_getrandom w.gr buf n).out = .ok) :
    ggentropy true w buf n = ⟨.ok, (getentropy_getrandom w.gr buf n).buf, true, [.stepA],
      (getentropy_getrandom w.gr buf n).chunks⟩ := by
  simp [ggentropy, h, hA]

theorem ggentropy_stepA_hang (w : LinuxWorld) (buf : List Nat) (n : Nat) (h : ¬ 256 < n)
    (hA : (getentropy_getrandom w.gr buf n).out = .hang) :
    ggentropy true w buf n = ⟨.hang, (getentropy_getrandom w.gr buf n).buf, true, [.stepA],
      (getentropy_getrandom w.gr buf n).chunks⟩ := by
  simp [ggentropy, h, hA]

theorem ggentropy_stepA_enosys (w : LinuxWorld) (buf : List Nat) (n : Nat) (h : ¬ 256 < n)
    (hA : (getentropy_getrandom w.gr buf n).out = .fail)
    (he : (getentropy_getrandom w.gr buf n).errc = .enosys) :
    ggentropy true w buf n = ggentropyBC w (getentropy_getrandom w.gr buf n).buf n [.stepA] := by
  simp [ggentropy, h, hA, he]

theorem ggentropy_stepA_hard (w : LinuxWorld) (buf : List Nat) (n : Nat) (h : ¬ 256 < n)
    (hA : (getentropy_getrandom w.gr buf n).out = .fail)
    (he : (getentropy_getrandom w.gr buf n).errc ≠ .enosys) :
    ggentropy true w buf n = ⟨.fail, (getentropy_getrandom w.gr buf n).buf, true, [.stepA],
      (getentropy_getrandom w.gr buf n).chunks⟩ := by
  simp [ggentropy, h, hA, he]

theorem ggentropyBC_ok (w : LinuxWorld) (buf : List Nat) (n : Nat) (pre : List Strategy)
    (hB : (getentropy_urandom w.ur buf n).out = .ok) :
    ggentropyBC w buf n pre = ⟨.ok, (getentropy_urandom w.ur buf n).buf, false,
      pre ++ [.stepB], (getentropy_urandom w.ur buf n).chunks⟩ := by
  simp [ggentropyBC, hB]

theorem ggentropyBC_hang (w : LinuxWorld) (buf : List Nat) (n : Nat) (pre : List Strategy)
    (hB : (getentropy_urandom w.ur buf n).out = .hang) :
    ggentropyBC w buf n pre = ⟨.hang, (getentropy_urandom w.ur buf n).buf, false,
      pre ++ [.stepB], (getentropy_urandom w.ur buf n).chunks⟩ := by
  simp [ggentropyBC, hB]

theorem ggentropyBC_fail (w : LinuxWorld) (buf : List Nat) (n : Nat) (pre : List Strategy)
    (hB : (getentropy_urandom w.ur buf n).out = .fail) :
    ggentropyBC w buf n pre =
      ⟨(getentropy_sysctl w.sc (getentropy_urandom w.ur buf n).buf n).out,
        (getentropy_sysctl w.sc (getentropy_urandom w.ur buf n).buf n).buf, false,
        pre ++ [.stepB, .stepC],
        (getentropy_sysctl w.sc (getentropy_urandom w.ur buf n).buf n).chunks⟩ := by
  simp [ggentropyBC, hB]

theorem getentropy_getrandom_buf (oracle : List OsResp) (buf : List Nat) (len : Nat) :
    (getentropy_getrandom oracle buf len).buf
      = writeBytes 0 (getentropy_getrandom oracle buf len).chunks.flatten buf :=
  getrandomLoop_buf oracle buf 0 (len : Int)

theorem getentropy_getrandom_length (oracle : List OsResp) (buf : List Nat) (len : Nat) :
    (getentropy_getrandom oracle buf len).buf.length = buf.length :=
  getrandomLoop_length oracle buf 0 (len : Int)

theorem getentropy_getrandom_ok_len (oracle : List OsResp) (buf : List Nat) (len : Nat)
    (h : (getentropy_getrandom oracle buf len).out = .ok) :
    len ≤ (getentropy_getrandom oracle buf len).chunks.flatten.length := by
  have := getrandomLoop_ok_len oracle buf 0 (len : Int) h
  exact_mod_cast this

theorem getentropy_getrandom_exact (oracle : List OsResp) (buf : List Nat) (len : Nat)
    (hf : grFits (len : Int) oracle = true)
    (h : (getentropy_getrandom oracle buf len).out = .ok) :
    (getentropy_getrandom oracle buf len).chunks.flatten.length = len := by
  have := getrandomLoop_exact oracle buf 0 (len : Int) hf (by omega) h
  exact_mod_cast this

theorem getentropy_getrandom_drop (oracle : List OsResp) (buf : List Nat) (len m : Nat)
    (hf : grFits (len : Int) oracle = true) (hm : len ≤ m) :
    (getentropy_getrandom oracle buf len).buf.drop m = buf.drop m :=
  getrandomLoop_drop oracle buf 0 (len : Int) m hf (by omega)

theorem getentropy_getrandom_chunks_mem (oracle : List OsResp) (buf : List Nat) (len : Nat)
    (bs : List Nat) (h : bs ∈ (getentropy_getrandom oracle buf len).chunks) :
    OsResp.ok bs ∈ oracle :=
  getrandomLoop_chunks_mem oracle buf 0 (len : Int) bs h

theorem getentropy_getrandom_no_assert (oracle : List OsResp) (buf : List Nat) (len : Nat) :
    (getentropy_getrandom oracle buf len).out ≠ .assertFail :=
  getrandomLoop_no_assert oracle buf 0 (len : Int)

theorem getentropy_getrandom_count (oracle : List OsResp) (buf : List Nat) (len : Nat)
    (hp : allPos oracle = true) :
    (getentropy_getrandom oracle buf len).chunks.length ≤ len := by
  have := getrandomLoop_count oracle buf 0 (len : Int) hp
  simp only [getentropy_getrandom]
  omega

theorem getentropy_sysctl_buf (oracle : List OsResp) (buf : List Nat) (len : Nat) :
    (getentropy_sysctl oracle buf len).buf
      = writeBytes 0 (getentropy_sysctl oracle buf len).chunks.flatten buf :=
  sysctlLoop_buf oracle buf 0 len

theorem getentropy_sysctl_length (oracle : List OsResp) (buf : List Nat) (len : Nat) :
    (getentropy_sysctl oracle buf len).buf.length = buf.length :=
  sysctlLoop_length oracle buf 0 len

theorem getentropy_sysctl_ok_len (oracle : List OsResp) (buf : List Nat) (len : Nat)
    (h : (getentropy_sysctl oracle buf len).out = .ok) :
    len ≤ (getentropy_sysctl oracle buf len).chunks.flatten.length := by
  have := sysctlLoop_ok_len oracle buf 0 len h
  simp only [getentropy_sysctl]
  omega

theorem getentropy_sysctl_exact (oracle : List OsResp) (buf : List Nat) (len : Nat)
    (hf : scFits len oracle = true)
    (h : (getentropy_sysctl oracle buf len).out = .ok) :
    (getentropy_sysctl oracle buf len).chunks.flatten.length = len := by
  have := sysctlLoop_exact oracle buf 0 len (by simpa using hf) (by omega) h
  simp only [getentropy_sysctl]
  omega

theorem getentropy_sysctl_drop (oracle : List OsResp) (buf : List Nat) (len m : Nat)
    (hf : scFits len oracle = true) (hm : len ≤ m) :
    (getentropy_sysctl oracle buf len).buf.drop m = buf.drop m :=
  sysctlLoop_drop oracle buf 0 len m (by simpa using hf) hm

theorem getentropy_sysctl_chunks_mem (oracle : List OsResp) (buf : List Nat) (len : Nat)
    (bs : List Nat) (h : bs ∈ (getentropy_sysctl oracle buf len).chunks) :
    OsResp.ok bs ∈ oracle :=
  sysctlLoop_chunks_mem oracle buf 0 len bs h

theorem getentropy_sysctl_no_assert (oracle : List OsResp) (buf : List Nat) (len : Nat) :
    (getentropy_sysctl oracle buf len).out ≠ .assertFail :=
  sysctlLoop_no_assert oracle buf 0 len

/-- Steps B and C only ever fill the first `n` bytes of the buffer
with chunks delivered by the device read or the sysctl call. -/
theorem ggentropyBC_fills (w : LinuxWorld) (buf : List Nat) (n : Nat) (pre : List Strategy)
    (hb : n ≤ buf.length) (h : (ggentropyBC w buf n pre).out = .ok) :
    n ≤ (ggentropyBC w buf n pre).chunks.flatten.length ∧
    (ggentropyBC w buf n pre).buf.take n = (ggentropyBC w buf n pre).chunks.flatten.take n ∧
    ∀ bs ∈ (ggentropyBC w buf n pre).chunks, OsResp.ok bs ∈ w.ur.rds ∨ OsResp.ok bs ∈ w.sc := by
  rcases hB : (getentropy_urandom w.ur buf n).out
  · rw [ggentropyBC_ok w buf n pre hB] at h ⊢
    dsimp only
    refine ⟨getentropy_urandom_ok_len w.ur buf n hB, ?_, ?_⟩
    · rw [getentropy_urandom_buf]
      exact take_writeBytes_zero _ _ _ (getentropy_urandom_ok_len w.ur buf n hB) hb
    · intro bs hbs
      exact Or.inl (getentropy_urandom_chunks_mem w.ur buf n bs hbs)
  · rw [ggentropyBC_fail w buf n pre hB] at h ⊢
    dsimp only at h ⊢
    have hlen : n ≤ (getentropy_urandom w.ur buf n).buf.length := by
      rw [getentropy_urandom_length]
      exact hb
    refine ⟨getentropy_sysctl_ok_len _ _ _ h, ?_, ?_⟩
    · rw [getentropy_sysctl_buf]
      exact take_writeBytes_zero _ _ _ (getentropy_sysctl_ok_len _ _ _ h) hlen
    · intro bs hbs
      exact Or.inr (getentropy_sysctl_chunks_mem _ _ _ bs hbs)
  · rw [ggentropyBC_hang w buf n pre hB] at h
    simp at h
  · exact absurd hB (getentropy_urandom_no_assert _ _ _)

/-- Auxiliary form of the success-provenance property, shared by the
statements below. -/
theorem ggentropy_fills_aux (avail : Bool) (w : LinuxWorld) (buf : List Nat)
    (n : Nat) (hb : n ≤ buf.length) (h : (ggentropy avail w buf n).out = .ok) :
    n ≤ (ggentropy avail w buf n).chunks.flatten.length ∧
    (ggentropy avail w buf n).buf.take n = (ggentropy avail w buf n).chunks.flatten.take n ∧
    ∀ bs ∈ (ggentropy avail w buf n).chunks,
      OsResp.ok bs ∈ w.gr ∨ OsResp.ok bs ∈ w.ur.rds ∨ OsResp.ok bs ∈ w.sc := by
  by_cases hn : 256 < n
  · rw [ggentropy_big avail w buf n hn] at h
    simp at h
  · cases avail
    · rw [ggentropy_notavail w buf n hn] at h ⊢
      obtain ⟨h1, h2, h3⟩ := ggentropyBC_fills w buf n [] hb h
      exact ⟨h1, h2, fun bs hbs => ((h3 bs hbs).elim (fun x => Or.inr (Or.inl x))
        (fun x => Or.inr (Or.inr x)))⟩
    · rcases hA : (getentropy_getrandom w.gr buf n).out
      · rw [ggentropy_stepA_ok w buf n hn hA] at h ⊢
        dsimp only
        refine ⟨getentropy_getrandom_ok_len w.gr buf n hA, ?_, ?_⟩
        · rw [getentropy_getrandom_buf]
          exact take_writeBytes_zero _ _ _ (getentropy_getrandom_ok_len w.gr buf n hA) hb
        · intro bs hbs
          exact Or.inl (getentropy_getrandom_chunks_mem w.gr buf n bs hbs)
      · by_cases he : (getentropy_getrandom w.gr buf n).errc = .enosys
        · rw [ggentropy_stepA_enosys w buf n hn hA he] at h ⊢
          have hb2 : n ≤ (getentropy_getrandom w.gr buf n).buf.length := by
            rw [getentropy_getrandom_length]
            exact hb
          obtain ⟨h1, h2, h3⟩ := ggentropyBC_fills w _ n [.stepA] hb2 h
          exact ⟨h1, h2, fun bs hbs => ((h3 bs hbs).elim (fun x => Or.inr (Or.inl x))
            (fun x => Or.inr (Or.inr x)))⟩
        · rw [ggentropy_stepA_hard w buf n hn hA he] at h
          simp at h
      · rw [ggentropy_stepA_hang w buf n hn hA] at h
        simp at h
      · exact absurd hA (getentropy_getrandom_no_assert _ _ _)

/-- **C1**: when the Linux `ggentropy` returns true for a request of
`n` bytes into a buffer of at least `n` bytes, the first `n` bytes of
the buffer coincide with the bytes delivered, in order, by the OS
entropy oracle responses (at least `n` of which were delivered), and
every delivered chunk is a success response of the `getrandom`
syscall, the `/dev/urandom` read, or the sysctl call — never any
other source. -/
theorem ggentropy_success_fills_from_os (avail : Bool) (w : LinuxWorld) (buf : List Nat)
    (n : Nat) (hb : n ≤ buf.length) (h : (ggentropy avail w buf n).out = .ok) :
    n ≤ (ggentropy avail w buf n).chunks.flatten.length ∧
    (ggentropy avail w buf n).buf.take n = (ggentropy avail w buf n).chunks.flatten.take n ∧
    ∀ bs ∈ (ggentropy avail w buf n).chunks,
      OsResp.ok bs ∈ w.gr ∨ OsResp.ok bs ∈ w.ur.rds ∨ OsResp.ok bs ∈ w.sc :=
  ggentropy_fills_aux avail w buf n hb h

/-- Witness for the hypotheses of `ggentropy_success_fills_from_os`:
a concrete world in which the syscall strategy delivers three bytes
in two chunks. -/
theorem ggentropy_success_fills_from_os_witness :
    (3 ≤ [(9:Nat), 9, 9, 9].length ∧
      (ggentropy true ⟨[.ok [1, 2], .ok [3]], ⟨[none], true, true, true, []⟩, []⟩
        [9, 9, 9, 9] 3).out = .ok) ∧
    3 ≤ (ggentropy true ⟨[.ok [1, 2], .ok [3]], ⟨[none], true, true, true, []⟩, []⟩
        [9, 9, 9, 9] 3).chunks.flatten.length := by
  refine ⟨⟨by decide, by decide⟩, ?_⟩
  exact (ggentropy_success_fills_from_os true
    ⟨[.ok [1, 2], .ok [3]], ⟨[none], true, true, true, []⟩, []⟩
    [9, 9, 9, 9] 3 (by decide) (by decide)).1

/-- The chain order of the Linux strategies, depending on whether the
syscall strategy is still marked available. -/
def stratOrder (avail : Bool) : List Strategy :=
  if avail then [.stepA, .stepB, .stepC] else [.stepB, .stepC]

theorem ggentropyBC_avail (w : LinuxWorld) (buf : List Nat) (n : Nat) (pre : List Strategy) :
    (ggentropyBC w buf n pre).avail = false := by
  rcases hB : (getentropy_urandom w.ur buf n).out
  · rw [ggentropyBC_ok w buf n pre hB]
  · rw [ggentropyBC_fail w buf n pre hB]
  · rw [ggentropyBC_hang w buf n pre hB]
  · exact absurd hB (getentropy_urandom_no_assert _ _ _)

theorem ggentropyBC_attempted (w : LinuxWorld) (buf : List Nat) (n : Nat)
    (pre : List Strategy) :
    (ggentropyBC w buf n pre).attempted = pre ++ [Strategy.stepB] ∨
    (ggentropyBC w buf n pre).attempted = pre ++ [Strategy.stepB, Strategy.stepC] := by
  rcases hB : (getentropy_urandom w.ur buf n).out
  · exact Or.inl (by rw [ggentropyBC_ok w buf n pre hB])
  · exact Or.inr (by rw [ggentropyBC_fail w buf n pre hB])
  · exact Or.inl (by rw [ggentropyBC_hang w buf n pre hB])
  · exact absurd hB (getentropy_urandom_no_assert _ _ _)

/-- **C2**: the `getrandom_available` flag starts out true, ends a
call false exactly when it was already false or Step A failed with
`ENOSYS` in that call, and once false every later call skips Step A
and the chain starts directly at the device strategy. -/
theorem getrandom_available_monotonic :
    getrandomAvailableInit = true ∧
    (∀ (avail : Bool) (w : LinuxWorld) (buf : List Nat) (n : Nat), n ≤ 256 →
      (((ggentropy avail w buf n).avail = false) ↔
        (avail = false ∨ ((getentropy_getrandom w.gr buf n).out = .fail ∧
          (getentropy_getrandom w.gr buf n).errc = .enosys))) ∧
      (avail = false → Strategy.stepA ∉ (ggentropy avail w buf n).attempted ∧
        ∃ t, (ggentropy avail w buf n).attempted = .stepB :: t)) := by
  refine ⟨rfl, fun avail w buf n hn => ?_⟩
  have hn' : ¬ 256 < n := by omega
  cases avail
  · rw [ggentropy_notavail w buf n hn']
    refine ⟨?_, fun _ => ?_⟩
    · simp [ggentropyBC_avail]
    · rcases ggentropyBC_attempted w buf n [] with ht | ht <;>
        rw [List.nil_append] at ht <;> rw [ht]
      · exact ⟨by decide, [], rfl⟩
      · exact ⟨by decide, [.stepC], rfl⟩
  · rcases hA : (getentropy_getrandom w.gr buf n).out
    · rw [ggentropy_stepA_ok w buf n hn' hA]
      simp [hA]
    · by_cases he : (getentropy_getrandom w.gr buf n).errc = .enosys
      · rw [ggentropy_stepA_enosys w buf n hn' hA he]
        simp [ggentropyBC_avail, hA, he]
      · rw [ggentropy_stepA_hard w buf n hn' hA he]
        simp [hA, he]
    · rw [ggentropy_stepA_hang w buf n hn' hA]
      simp [hA]
    · exact absurd hA (getentropy_getrandom_no_assert _ _ _)

/-- Witness for the hypotheses of `getrandom_available_monotonic`:
with the flag already false, a concrete call attempts the device
strategy first. -/
theorem getrandom_available_monotonic_witness :
    (1 : Nat) ≤ 256 ∧
    (ggentropy false ⟨[], ⟨[none], true, true, true, [.ok [7]]⟩, []⟩ [0] 1).avail = false :=
  ⟨by decide,
    ((getrandom_available_monotonic.2 false ⟨[], ⟨[none], true, true, true, [.ok [7]]⟩, []⟩
      [0] 1 (by decide)).1).mpr (Or.inl rfl)⟩

/-- **C3**: if Step A's syscall loop fails with an errno that is
neither `EINTR` nor `ENOSYS`, the whole call returns false at once
and neither the device strategy nor the sysctl strategy is
attempted. -/
theorem stepA_hard_error_aborts (w : LinuxWorld) (buf : List Nat) (n : Nat) (e : Errno)
    (hn : n ≤ 256)
    (hA : (getentropy_getrandom w.gr buf n).out = .fail)
    (he : (getentropy_getrandom w.gr buf n).errc = e)
    (h1 : e ≠ .eintr) (h2 : e ≠ .enosys) :
    (ggentropy true w buf n).out = .fail ∧
    (ggentropy true w buf n).attempted = [.stepA] := by
  have hn' : ¬ 256 < n := by omega
  have he2 : (getentropy_getrandom w.gr buf n).errc ≠ .enosys := by
    rw [he]
    exact h2
  rw [ggentropy_stepA_hard w buf n hn' hA he2]
  exact ⟨rfl, rfl⟩

/-- Witness for the hypotheses of `stepA_hard_error_aborts`: a
concrete world where the syscall fails with an `EFAULT`-like error
code. -/
theorem stepA_hard_error_aborts_witness :
    (ggentropy true ⟨[.err (.other 14)], ⟨[none], true, true, true, [.ok [7]]⟩, [.ok [7]]⟩
      [0] 1).out = .fail ∧
    (ggentropy true ⟨[.err (.other 14)], ⟨[none], true, true, true, [.ok [7]]⟩, [.ok [7]]⟩
      [0] 1).attempted = [.stepA] :=
  stepA_hard_error_aborts ⟨[.err (.other 14)], ⟨[none], true, true, true, [.ok [7]]⟩, [.ok [7]]⟩
    [0] 1 (.other 14) (by decide) (by decide) (by decide) (by decide) (by decide)

/-- **C4**: the strategies run in the fixed order A, B, C (the list
of attempted strategies is always a prefix of that order, starting at
B when the availability flag is off), and a success of any strategy
ends the call with true before any later strategy is invoked. -/
theorem strategies_tried_in_order (avail : Bool) (w : LinuxWorld) (buf : List Nat) (n : Nat)
    (hn : n ≤ 256) :
    (∃ k, (ggentropy avail w buf n).attempted = (stratOrder avail).take k) ∧
    (avail = true → (getentropy_getrandom w.gr buf n).out = .ok →
      (ggentropy avail w buf n).out = .ok ∧
      (ggentropy avail w buf n).attempted = [.stepA]) ∧
    (avail = false → (getentropy_urandom w.ur buf n).out = .ok →
      (ggentropy avail w buf n).out = .ok ∧
      (ggentropy avail w buf n).attempted = [.stepB]) ∧
    (avail = true → (getentropy_getrandom w.gr buf n).out = .fail →
      (getentropy_getrandom w.gr buf n).errc = .enosys →
      (getentropy_urandom w.ur (getentropy_getrandom w.gr buf n).buf n).out = .ok →
      (ggentropy avail w buf n).out = .ok ∧
      (ggentropy avail w buf n).attempted = [.stepA, .stepB]) := by
  have hn' : ¬ 256 < n := by omega
  cases avail
  · rw [ggentropy_notavail w buf n hn']
    rcases hB : (getentropy_urandom w.ur buf n).out
    · rw [ggentropyBC_ok w buf n [] hB]
      exact ⟨⟨1, rfl⟩, fun hc => by simp at hc, fun _ _ => ⟨rfl, rfl⟩,
        fun hc => by simp at hc⟩
    · rw [ggentropyBC_fail w buf n [] hB]
      exact ⟨⟨2, rfl⟩, fun hc => by simp at hc, fun _ hc => by simp at hc,
        fun hc => by simp at hc⟩
    · rw [ggentropyBC_hang w buf n [] hB]
      exact ⟨⟨1, rfl⟩, fun hc => by simp at hc, fun _ hc => by simp at hc,
        fun hc => by simp at hc⟩
    · exact absurd hB (getentropy_urandom_no_assert _ _ _)
  · rcases hA : (getentropy_getrandom w.gr buf n).out
    · rw [ggentropy_stepA_ok w buf n hn' hA]
      exact ⟨⟨1, rfl⟩, fun _ _ => ⟨rfl, rfl⟩, fun hc => by simp at hc,
        fun _ hf => by simp at hf⟩
    · by_cases he : (getentropy_getrandom w.gr buf n).errc = .enosys
      · rw [ggentropy_stepA_enosys w buf n hn' hA he]
        rcases hB : (getentropy_urandom w.ur (getentropy_getrandom w.gr buf n).buf n).out
        · rw [ggentropyBC_ok w _ n [.stepA] hB]
          exact ⟨⟨2, rfl⟩, fun _ hc => by simp at hc, fun hc => by simp at hc,
            fun _ _ _ _ => ⟨rfl, rfl⟩⟩
        · rw [ggentropyBC_fail w _ n [.stepA] hB]
          exact ⟨⟨3, rfl⟩, fun _ hc => by simp at hc, fun hc => by simp at hc,
            fun _ _ _ hc => by simp at hc⟩
        · rw [ggentropyBC_hang w _ n [.stepA] hB]
          exact ⟨⟨2, rfl⟩, fun _ hc => by simp at hc, fun hc => by simp at hc,
            fun _ _ _ hc => by simp at hc⟩
        · exact absurd hB (getentropy_urandom_no_assert _ _ _)
      · rw [ggentropy_stepA_hard w buf n hn' hA he]
        exact ⟨⟨1, rfl⟩, fun _ hc => by simp at hc, fun hc => by simp at hc,
          fun _ _ hc => absurd hc he⟩
    · rw [ggentropy_stepA_hang w buf n hn' hA]
      exact ⟨⟨1, rfl⟩, fun _ hc => by simp at hc, fun hc => by simp at hc,
        fun _ hc => by simp at hc⟩
    · exact absurd hA (getentropy_getrandom_no_assert _ _ _)

/-- Witness for the hypotheses of `strategies_tried_in_order`: in a
concrete world where Step A succeeds at once, only Step A is
attempted. -/
theorem strategies_tried_in_order_witness :
    (ggentropy true ⟨[.ok [5]], ⟨[none], true, true, true, [.ok [7]]⟩, []⟩ [0] 1).out = .ok ∧
    (ggentropy true ⟨[.ok [5]], ⟨[none], true, true, true, [.ok [7]]⟩, []⟩ [0] 1).attempted
      = [.stepA] :=
  (strategies_tried_in_order true ⟨[.ok [5]], ⟨[none], true, true, true, [.ok [7]]⟩, []⟩
    [0] 1 (by decide)).2.1 rfl (by decide)

/-- **C5**: if the device opens but is not a character special
device, or the `RNDGETENTCNT` ioctl fails, Step B closes its
descriptor, delivers no bytes, leaves the buffer untouched, fails
with `EIO` exactly like an open failure, and the chain then goes on
to Step C. -/
theorem urandom_integrity_check_failure (w : UrWorld) (buf : List Nat) (len : Nat)
    (hop : openLoop w.opens = .opened)
    (hbad : (w.fstatOk && w.isChr) = false ∨ w.ioctlOk = false) :
    getentropy_urandom w buf len = ⟨.fail, buf, [], .eio, 1, 1⟩ ∧
    (∀ (gr sc : List OsResp) (pre : List Strategy),
      (ggentropyBC ⟨gr, w, sc⟩ buf len pre).attempted = pre ++ [.stepB, .stepC]) := by
  have h1 := getentropy_urandom_badcheck w buf len hop hbad
  refine ⟨h1, fun gr sc pre => ?_⟩
  rw [ggentropyBC_fail ⟨gr, w, sc⟩ buf len pre (by rw [h1])]

/-- Witness for the hypotheses of `urandom_integrity_check_failure`:
a device node that is not a character special device is rejected
without reading. -/
theorem urandom_integrity_check_failure_witness :
    getentropy_urandom ⟨[none], true, false, true, [.ok [7]]⟩ [5] 1
      = ⟨.fail, [5], [], .eio, 1, 1⟩ :=
  (urandom_integrity_check_failure ⟨[none], true, false, true, [.ok [7]]⟩ [5] 1
    (by decide) (Or.inl (by decide))).1

/-- **C6**: transient interruption is invisible: an `EINTR` open
response, and any `EINTR`/`EAGAIN` responses of the syscall and read
loops, can be removed from the oracle without changing the result of
the strategy at all (same outcome, same buffer, same delivered
chunks); in particular a run interrupted finitely often succeeds with
the full length exactly when the uninterrupted run does. -/
theorem transient_interruption_invisible :
    (∀ rest : List (Option Errno), openLoop (some .eintr :: rest) = openLoop rest) ∧
    (∀ (oracle : List OsResp) (buf : List Nat) (p : Nat) (left : Int),
      getrandomLoop (oracle.filter fun r => !transientG r) buf p left
        = getrandomLoop oracle buf p left) ∧
    (∀ (rest : List OsResp) (buf : List Nat) (p : Nat) (left : Int),
      getrandomLoop (.err .eintr :: rest) buf p left = getrandomLoop rest buf p left) ∧
    (∀ (oracle : List OsResp) (buf : List Nat) (i len : Nat),
      readLoop (oracle.filter fun r => !transientR r) buf i len = readLoop oracle buf i len) ∧
    (∀ (rest : List OsResp) (buf : List Nat) (i len : Nat),
      readLoop (.err .eintr :: rest) buf i len = readLoop rest buf i len) ∧
    (∀ (rest : List OsResp) (buf : List Nat) (i len : Nat),
      readLoop (.err .eagain :: rest) buf i len = readLoop rest buf i len) :=
  ⟨openLoop_eintr, getrandomLoop_filter, getrandomLoop_eintr,
    readLoop_filter,
    fun rest buf i len => readLoop_transient .eintr (Or.inr rfl) rest buf i len,
    fun rest buf i len => readLoop_transient .eagain (Or.inl rfl) rest buf i len⟩

/-- Steps B and C write only the first `n` bytes when their oracles
are well-behaved, and on success deliver exactly `n` bytes. -/
theorem ggentropyBC_exact_frame (w : LinuxWorld) (buf : List Nat) (n : Nat)
    (pre : List Strategy) (hrd : rdFits n w.ur.rds = true) (hsc : scFits n w.sc = true) :
    (ggentropyBC w buf n pre).buf.drop n = buf.drop n ∧
    (ggentropyBC w buf n pre).buf.length = buf.length ∧
    ((ggentropyBC w buf n pre).out = .ok →
      (ggentropyBC w buf n pre).chunks.flatten.length = n) := by
  rcases hB : (getentropy_urandom w.ur buf n).out
  · rw [ggentropyBC_ok w buf n pre hB]
    dsimp only
    exact ⟨getentropy_urandom_drop w.ur buf n n hrd (by omega),
      getentropy_urandom_length w.ur buf n,
      fun _ => getentropy_urandom_exact w.ur buf n hrd hB⟩
  · rw [ggentropyBC_fail w buf n pre hB]
    dsimp only
    refine ⟨?_, ?_, fun hok => getentropy_sysctl_exact _ _ _ hsc hok⟩
    · rw [getentropy_sysctl_drop w.sc _ n n hsc (by omega)]
      exact getentropy_urandom_drop w.ur buf n n hrd (by omega)
    · rw [getentropy_sysctl_length, getentropy_urandom_length]
  · rw [ggentropyBC_hang w buf n pre hB]
    dsimp only
    exact ⟨getentropy_urandom_drop w.ur buf n n hrd (by omega),
      getentropy_urandom_length w.ur buf n,
      fun hc => by simp at hc⟩
  · exact absurd hB (getentropy_urandom_no_assert _ _ _)

/-- **C7**: with well-behaved OS primitives (no primitive ever
returns more bytes than asked), a call that returns true delivered
exactly `n` bytes, the first `n` bytes of the buffer are exactly the
delivered bytes, and every byte at index `n` or beyond is unchanged;
the buffer length is preserved on every path, successful or not. -/
theorem ggentropy_success_exact_fill_and_frame (avail : Bool) (w : LinuxWorld)
    (buf : List Nat) (n : Nat) (hb : n ≤ buf.length) (hf : worldFits n w = true) :
    (ggentropy avail w buf n).buf.length = buf.length ∧
    (ggentropy avail w buf n).buf.drop n = buf.drop n ∧
    ((ggentropy avail w buf n).out = .ok →
      (ggentropy avail w buf n).chunks.flatten.length = n ∧
      (ggentropy avail w buf n).buf.take n = (ggentropy avail w buf n).chunks.flatten) := by
  rw [worldFits, Bool.and_eq_true, Bool.and_eq_true] at hf
  obtain ⟨⟨hgr, hrd⟩, hsc⟩ := hf
  have main : (ggentropy avail w buf n).buf.length = buf.length ∧
      (ggentropy avail w buf n).buf.drop n = buf.drop n ∧
      ((ggentropy avail w buf n).out = .ok →
        (ggentropy avail w buf n).chunks.flatten.length = n) := by
    by_cases hn : 256 < n
    · rw [ggentropy_big avail w buf n hn]
      exact ⟨rfl, rfl, fun hc => by simp at hc⟩
    · cases avail
      · rw [ggentropy_notavail w buf n hn]
        obtain ⟨h1, h2, h3⟩ := ggentropyBC_exact_frame w buf n [] hrd hsc
        exact ⟨h2, h1, h3⟩
      · rcases hA : (getentropy_getrandom w.gr buf n).out
        · rw [ggentropy_stepA_ok w buf n hn hA]
          dsimp only
          exact ⟨getentropy_getrandom_length w.gr buf n,
            getentropy_getrandom_drop w.gr buf n n hgr (by omega),
            fun _ => getentropy_getrandom_exact w.gr buf n hgr hA⟩
        · by_cases he : (getentropy_getrandom w.gr buf n).errc = .enosys
          · rw [ggentropy_stepA_enosys w buf n hn hA he]
            obtain ⟨h1, h2, h3⟩ := ggentropyBC_exact_frame w
              (getentropy_getrandom w.gr buf n).buf n [.stepA] hrd hsc
            refine ⟨?_, ?_, h3⟩
            · rw [h2, getentropy_getrandom_length]
            · rw [h1, getentropy_getrandom_drop w.gr buf n n hgr (by omega)]
          · rw [ggentropy_stepA_hard w buf n hn hA he]
            dsimp only
            exact ⟨getentropy_getrandom_length w.gr buf n,
              getentropy_getrandom_drop w.gr buf n n hgr (by omega),
              fun hc => by simp at hc⟩
        · rw [ggentropy_stepA_hang w buf n hn hA]
          dsimp only
          exact ⟨getentropy_getrandom_length w.gr buf n,
            getentropy_getrandom_drop w.gr buf n n hgr (by omega),
            fun hc => by simp at hc⟩
        · exact absurd hA (getentropy_getrandom_no_assert _ _ _)
  refine ⟨main.1, main.2.1, fun hok => ⟨main.2.2 hok, ?_⟩⟩
  obtain ⟨hlen, htake, _⟩ := ggentropy_fills_aux avail w buf n hb hok
  rw [htake, List.take_of_length_le (by rw [main.2.2 hok])]

/-- Witness for the hypotheses of `ggentropy_success_exact_fill_and_frame`:
a concrete two-byte request into a four-byte buffer leaves the last
two bytes untouched. -/
theorem ggentropy_success_exact_fill_and_frame_witness :
    (ggentropy true ⟨[.ok [1], .ok [2]], ⟨[none], true, true, true, []⟩, []⟩
      [9, 9, 9, 9] 2).buf.drop 2 = [9, 9] :=
  (ggentropy_success_exact_fill_and_frame true
    ⟨[.ok [1], .ok [2]], ⟨[none], true, true, true, []⟩, []⟩
    [9, 9, 9, 9] 2 (by decide) (by decide)).2.1

/-! ### Zero-length calls and the length assertion -/

theorem getentropy_sysctl_zero (oracle : List OsResp) (buf : List Nat) :
    getentropy_sysctl oracle buf 0 = ⟨.ok, buf, [], .eio, 0, 0⟩ :=
  sysctlLoop_done oracle buf 0 0 (by omega)

theorem getentropy_urandom_zero (w : UrWorld) (buf : List Nat) :
    (getentropy_urandom w buf 0).buf = buf ∧
    (getentropy_urandom w buf 0).chunks = [] ∧
    ((getentropy_urandom w buf 0).out = .hang ↔ openLoop w.opens = .hang) := by
  rcases hop : openLoop w.opens
  · cases hcc : (w.fstatOk && w.isChr)
    · simp [getentropy_urandom, hop, hcc]
    · cases hio : w.ioctlOk
      · simp [getentropy_urandom, hop, hcc, hio]
      · have hrl := readLoop_done w.rds buf 0 0 (by omega)
        simp [getentropy_urandom, hop, hcc, hio, hrl]
  · simp [getentropy_urandom, hop]
  · simp [getentropy_urandom, hop]

theorem ggentropyBC_zero (w : LinuxWorld) (buf : List Nat) (pre : List Strategy) :
    (ggentropyBC w buf 0 pre).buf = buf ∧
    ((ggentropyBC w buf 0 pre).out = .ok ∨
      ((ggentropyBC w buf 0 pre).out = .hang ∧ openLoop w.ur.opens = .hang)) := by
  obtain ⟨hb, _, hh⟩ := getentropy_urandom_zero w.ur buf
  rcases hB : (getentropy_urandom w.ur buf 0).out
  · rw [ggentropyBC_ok w buf 0 pre hB]
    exact ⟨hb, Or.inl rfl⟩
  · rw [ggentropyBC_fail w buf 0 pre hB]
    rw [getentropy_sysctl_zero w.sc (getentropy_urandom w.ur buf 0).buf]
    exact ⟨hb, Or.inl rfl⟩
  · rw [ggentropyBC_hang w buf 0 pre hB]
    exact ⟨hb, Or.inr ⟨rfl, hh.mp hB⟩⟩
  · exact absurd hB (getentropy_urandom_no_assert _ _ _)

/-- **C8** counterexample: on the Windows body a zero-length call
still makes the one library call and returns its verdict, so a world
in which `BCryptGenRandom` fails makes the zero-length call return
false, contradicting the claim that it always returns true on every
platform regardless of the OS outcomes. -/
theorem zero_length_windows_failure :
    (ggentropyWin false [] [7] 0).out = .fail ∧
    ¬ (ggentropyWin false [] [7] 0).out = .ok := by
  decide

/-- **C8** amended: a zero-length call writes nothing on every
platform; on Linux it never returns false (it returns true whenever
the availability flag is still set, and whenever the device open
terminates), on BSD it always returns true, and on Windows it
returns true exactly when the library call does not fail. -/
theorem zero_length_no_mutation :
    (∀ (avail : Bool) (w : LinuxWorld) (buf : List Nat),
      (ggentropy avail w buf 0).buf = buf ∧
      (ggentropy avail w buf 0).out ≠ .fail ∧
      (ggentropy avail w buf 0).out ≠ .assertFail ∧
      (avail = true → (ggentropy avail w buf 0).out = .ok) ∧
      (openLoop w.ur.opens ≠ .hang → (ggentropy avail w buf 0).out = .ok)) ∧
    (∀ (os buf : List Nat), ggentropyBsd os buf 0 = ⟨.ok, buf⟩) ∧
    (∀ (cok : Bool) (os buf : List Nat),
      (ggentropyWin cok os buf 0).buf = buf ∧
      ((ggentropyWin cok os buf 0).out = .ok ↔ cok = true)) := by
  refine ⟨fun avail w buf => ?_, fun os buf => rfl, fun cok os buf => ?_⟩
  · cases avail
    · rw [ggentropy_notavail w buf 0 (by omega)]
      obtain ⟨hb, hout⟩ := ggentropyBC_zero w buf []
      rcases hout with hout | ⟨hout, hhang⟩
      · rw [hout]
        exact ⟨hb, by simp, by simp, fun hc => by simp at hc, fun _ => rfl⟩
      · rw [hout]
        exact ⟨hb, by simp, by simp, fun hc => by simp at hc,
          fun hno => absurd hhang hno⟩
    · have hd : getentropy_getrandom w.gr buf 0 = ⟨.ok, buf, [], .eio, 0, 0⟩ :=
        getrandomLoop_done w.gr buf 0 ((0 : Nat) : Int) (by omega)
      rw [ggentropy_stepA_ok w buf 0 (by omega) (by rw [hd])]
      rw [hd]
      exact ⟨rfl, by simp, by simp, fun _ => rfl, fun _ => rfl⟩
  · cases cok <;> simp [ggentropyWin, writeBytes]

/-- Witness for the hypotheses of `zero_length_no_mutation`: with the
flag set, a concrete zero-length Linux call returns true. -/
theorem zero_length_no_mutation_witness :
    (ggentropy true ⟨[], ⟨[], true, true, true, []⟩, []⟩ [4, 5] 0).out = .ok :=
  ((zero_length_no_mutation.1 true ⟨[], ⟨[], true, true, true, []⟩, []⟩ [4, 5]).2.2.2.1) rfl

theorem ggentropyBC_no_assert (w : LinuxWorld) (buf : List Nat) (n : Nat)
    (pre : List Strategy) : (ggentropyBC w buf n pre).out ≠ .assertFail := by
  rcases hB : (getentropy_urandom w.ur buf n).out
  · rw [ggentropyBC_ok w buf n pre hB]
    simp
  · rw [ggentropyBC_fail w buf n pre hB]
    exact getentropy_sysctl_no_assert _ _ _
  · rw [ggentropyBC_hang w buf n pre hB]
    simp
  · exact absurd hB (getentropy_urandom_no_assert _ _ _)

/-- **C9**: every platform body asserts `n ≤ 256`: any larger request
(257 in particular) stops at the assertion — no strategy runs, the
buffer is untouched, and the call does not return true — while for
every request within the precondition the assertion never fires. -/
theorem length_assertion_enforced :
    (∀ (avail : Bool) (w : LinuxWorld) (buf : List Nat),
      ggentropy avail w buf 257 = ⟨.assertFail, buf, avail, [], []⟩) ∧
    (∀ (avail : Bool) (w : LinuxWorld) (buf : List Nat) (n : Nat), 256 < n →
      ggentropy avail w buf n = ⟨.assertFail, buf, avail, [], []⟩) ∧
    (∀ (avail : Bool) (w : LinuxWorld) (buf : List Nat) (n : Nat), n ≤ 256 →
      (ggentropy avail w buf n).out ≠ .assertFail) ∧
    (∀ (cok : Bool) (os buf : List Nat) (n : Nat), 256 < n →
      ggentropyWin cok os buf n = ⟨.assertFail, buf⟩) ∧
    (∀ (cok : Bool) (os buf : List Nat) (n : Nat), n ≤ 256 →
      (ggentropyWin cok os buf n).out ≠ .assertFail) ∧
    (∀ (os buf : List Nat) (n : Nat), 256 < n →
      ggentropyBsd os buf n = ⟨.assertFail, buf⟩) ∧
    (∀ (os buf : List Nat) (n : Nat), n ≤ 256 →
      (ggentropyBsd os buf n).out ≠ .assertFail) := by
  refine ⟨fun avail w buf => ggentropy_big avail w buf 257 (by omega),
    fun avail w buf n hn => ggentropy_big avail w buf n hn,
    fun avail w buf n hn => ?_,
    fun cok os buf n hn => by rw [ggentropyWin, if_pos hn],
    fun cok os buf n hn => ?_,
    fun os buf n hn => by rw [ggentropyBsd, if_pos hn],
    fun os buf n hn => by rw [ggentropyBsd, if_neg (by omega)]; simp⟩
  · have hn' : ¬ 256 < n := by omega
    cases avail
    · rw [ggentropy_notavail w buf n hn']
      exact ggentropyBC_no_assert w buf n []
    · rcases hA : (getentropy_getrandom w.gr buf n).out
      · rw [ggentropy_stepA_ok w buf n hn' hA]
        simp
      · by_cases he : (getentropy_getrandom w.gr buf n).errc = .enosys
        · rw [ggentropy_stepA_enosys w buf n hn' hA he]
          exact ggentropyBC_no_assert w _ n [.stepA]
        · rw [ggentropy_stepA_hard w buf n hn' hA he]
          simp
      · rw [ggentropy_stepA_hang w buf n hn' hA]
        simp
      · exact absurd hA (getentropy_getrandom_no_assert _ _ _)
  · rw [ggentropyWin, if_neg (by omega)]
    cases cok <;> simp

/-- Witness for the hypotheses of `length_assertion_enforced`: a
257-byte request on a concrete Linux world stops at the assertion. -/
theorem length_assertion_enforced_witness :
    ggentropy true ⟨[.ok [1]], ⟨[none], true, true, true, []⟩, []⟩ [0] 257
      = ⟨.assertFail, [0], true, [], []⟩ :=
  length_assertion_enforced.1 true ⟨[.ok [1]], ⟨[none], true, true, true, []⟩, []⟩ [0]

/-- **C10**: each of the three Linux loops makes at most `length`
successful (progress) calls when every successful OS response
delivers at least one byte; a primitive that keeps succeeding with
zero bytes transferred leaves the loop demanding ever more responses
(the loop is still running after any number of such responses). -/
theorem loops_progress_and_zero_progress :
    (∀ (oracle : List OsResp) (buf : List Nat) (p : Nat) (left : Int),
      allPos oracle = true →
      ((getrandomLoop oracle buf p left).chunks.length : Int) ≤ max left 0) ∧
    (∀ (oracle : List OsResp) (buf : List Nat) (len : Nat), allPos oracle = true →
      (getentropy_getrandom oracle buf len).chunks.length ≤ len) ∧
    (∀ (oracle : List OsResp) (buf : List Nat) (i len : Nat), allPos oracle = true →
      (readLoop oracle buf i len).chunks.length ≤ len - i) ∧
    (∀ (oracle : List OsResp) (buf : List Nat) (i len : Nat), allPos oracle = true →
      (sysctlLoop oracle buf i len).chunks.length ≤ len - i) ∧
    (∀ (k : Nat) (buf : List Nat) (p : Nat) (left : Int), 0 < left →
      (getrandomLoop (List.replicate k (.ok [])) buf p left).out = .hang) ∧
    (∀ (k : Nat) (buf : List Nat) (i len : Nat), i < len →
      (readLoop (List.replicate k (.ok [])) buf i len).out = .hang) ∧
    (∀ (k : Nat) (buf : List Nat) (i len : Nat), i < len →
      (sysctlLoop (List.replicate k (.ok [])) buf i len).out = .hang) :=
  ⟨getrandomLoop_count, getentropy_getrandom_count, readLoop_count, sysctlLoop_count,
    getrandomLoop_zero_progress, readLoop_zero_progress, sysctlLoop_zero_progress⟩

/-- Witness for the hypotheses of `loops_progress_and_zero_progress`:
a concrete positive-progress run and a concrete zero-progress run. -/
theorem loops_progress_and_zero_progress_witness :
    (getentropy_getrandom [.ok [1], .ok [2, 3]] [0, 0, 0] 3).chunks.length ≤ 3 ∧
    (getrandomLoop (List.replicate 5 (.ok [])) [0] 0 1).out = .hang :=
  ⟨loops_progress_and_zero_progress.2.1 [.ok [1], .ok [2, 3]] [0, 0, 0] 3 (by decide),
    loops_progress_and_zero_progress.2.2.2.2.1 5 [0] 0 1 (by decide)⟩
